import Mathlib

/-!
Shallow embedding of the `link32` static linker (`src/main.rs`).

Modelling conventions:
* A byte buffer is a `List Nat`; every byte read from Rust `u8` data is
  reduced `% 256` where it is consumed.
* Rust `String`s are modelled as their UTF-8 byte lists (`List Nat`); two
  Rust strings are equal exactly when their byte lists are equal, so
  `HashMap<String, u32>` lookups are byte-list lookups.
* A `HashMap` is modelled as the sequence of its inserts in program order
  (`List (List Nat × Nat)`); `hmLookup` gives the latest insert for a key,
  which is the map's value.  Iterating a Rust `HashMap` yields its bindings
  in an unspecified order, so theorems about iteration quantify over
  permutations of the binding list.
* `u32` arithmetic is `Nat` arithmetic reduced `% 4294967296` where the Rust
  code adds or casts.
* Fallible code returns `Option`: `none` models a Rust panic (slice index
  out of range, explicit `panic!`), which is distinct from the structured
  `Err` results that the code threads as values.
* The `println!` call in `read_symbols` is modelled by returning, next to
  the symbol map, the list of `(name, address)` pairs printed to stdout.
-/

namespace Link32

/-- Byte `i` of buffer `b` as a `u8` value (out-of-range reads default to 0;
    each use site is guarded by the same bounds checks the Rust code makes). -/
def byteD (b : List Nat) (i : Nat) : Nat := (b.getD i 0) % 256

/-- Rust `u32::from_le_bytes` applied to the four bytes of `b` at `i .. i+3`. -/
def leU32 (b : List Nat) (i : Nat) : Nat :=
  byteD b i + 256 * byteD b (i + 1) + 65536 * byteD b (i + 2) + 16777216 * byteD b (i + 3)

/-- Rust `u32::to_le_bytes`. -/
def toLE4 (v : Nat) : List Nat :=
  [v % 256, v / 256 % 256, v / 65536 % 256, v / 16777216 % 256]

/-- The four bytes of `code` at offsets `s .. s+3` (the slice a relocation
    patches). -/
def slice4 (code : List Nat) (s : Nat) : List Nat :=
  [code.getD s 0, code.getD (s + 1) 0, code.getD (s + 2) 0, code.getD (s + 3) 0]

/-- The `Header` struct of `src/main.rs`: three `u32` fields. -/
structure Header where
  symbol_offset : Nat
  relocation_offset : Nat
  code_offset : Nat
deriving DecidableEq, Repr

/-- Rust `Header::from_slice`: the code zero-initialises the struct and then
    overwrites the three fields from bytes 5–8, 9–12 and 13–16 of the slice
    (bytes 0–4 are never read). -/
def Header.from_slice (slice : List Nat) : Header :=
  { symbol_offset := leU32 slice 5
    relocation_offset := leU32 slice 9
    code_offset := leU32 slice 13 }

/-- Lookup in a `HashMap` modelled as its insert sequence: the latest insert
    for the key wins (later inserts are further right in the list, matching
    `symbols.insert(name, address)` overwriting prior bindings). -/
def hmLookup (m : List (List Nat × Nat)) (k : List Nat) : Option Nat :=
  match m with
  | [] => none
  | p :: rest =>
    match hmLookup rest k with
    | some v => some v
    | none => if p.1 = k then some p.2 else none

/-- ASCII decimal digits of `n` (fuel-driven division loop). -/
def decimalAux : Nat → Nat → List Nat
  | 0, _ => []
  | fuel + 1, n => if n < 10 then [48 + n] else decimalAux fuel (n / 10) ++ [48 + n % 10]

/-- Rust `u32::to_string`: the UTF-8 bytes of the decimal representation of `n`. -/
def natDecimal (n : Nat) : List Nat := decimalAux (n + 1) n

/-- Whether `b` is a UTF-8 continuation byte (`0x80 ..= 0xBF`). -/
def isCont (b : Nat) : Bool := 128 ≤ b && b ≤ 191

/-- Whether `bs` is a valid UTF-8 byte sequence, with exactly the ranges
    Rust's `String::from_utf8` validation accepts (RFC 3629: no overlong
    encodings, no surrogates U+D800–U+DFFF, nothing above U+10FFFF):
    leading byte `0x00..=0x7F` alone; `0xC2..=0xDF` + 1 continuation;
    `0xE0` + `0xA0..=0xBF` + 1 continuation; `0xE1..=0xEC`/`0xEE..=0xEF`
    + 2 continuations; `0xED` + `0x80..=0x9F` + 1 continuation;
    `0xF0` + `0x90..=0xBF` + 2 continuations; `0xF1..=0xF3` + 3
    continuations; `0xF4` + `0x80..=0x8F` + 2 continuations; all other
    leading bytes invalid. -/
def isValidUTF8 : List Nat → Bool
  | [] => true
  | b :: rest =>
    if b ≤ 127 then isValidUTF8 rest
    else if 194 ≤ b && b ≤ 223 then
      match rest with
      | c1 :: rest2 => isCont c1 && isValidUTF8 rest2
      | [] => false
    else if b = 224 then
      match rest with
      | c1 :: c2 :: rest2 => (160 ≤ c1 && c1 ≤ 191) && isCont c2 && isValidUTF8 rest2
      | _ => false
    else if 225 ≤ b && b ≤ 236 then
      match rest with
      | c1 :: c2 :: rest2 => isCont c1 && isCont c2 && isValidUTF8 rest2
      | _ => false
    else if b = 237 then
      match rest with
      | c1 :: c2 :: rest2 => (128 ≤ c1 && c1 ≤ 159) && isCont c2 && isValidUTF8 rest2
      | _ => false
    else if 238 ≤ b && b ≤ 239 then
      match rest with
      | c1 :: c2 :: rest2 => isCont c1 && isCont c2 && isValidUTF8 rest2
      | _ => false
    else if b = 240 then
      match rest with
      | c1 :: c2 :: c3 :: rest2 =>
        (144 ≤ c1 && c1 ≤ 191) && isCont c2 && isCont c3 && isValidUTF8 rest2
      | _ => false
    else if 241 ≤ b && b ≤ 243 then
      match rest with
      | c1 :: c2 :: c3 :: rest2 => isCont c1 && isCont c2 && isCont c3 && isValidUTF8 rest2
      | _ => false
    else if b = 244 then
      match rest with
      | c1 :: c2 :: c3 :: rest2 =>
        (128 ≤ c1 && c1 ≤ 143) && isCont c2 && isCont c3 && isValidUTF8 rest2
      | _ => false
    else false

/-- The loop body of `read_symbols`, iterated `count` times from cursor
    `pos`.  Per entry: 1 length byte, that many name bytes, 4 little-endian
    address bytes; each bounds violation is a Rust `panic!`, modelled `none`,
    and `String::from_utf8(..).unwrap()` aborts on a name that is not valid
    UTF-8 — checked after the name bytes are read and before the address
    bounds check, exactly as in the source.  Returns the insert sequence of
    the symbol map together with the list of
    `println!("Read symbol: ...")` events, both in read order. -/
def read_symbols_loop (buffer : List Nat) :
    Nat → Nat → Option (List (List Nat × Nat) × List (List Nat × Nat))
  | _, 0 => some ([], [])
  | pos, count + 1 =>
    if buffer.length ≤ pos then none
    else
      let name_len := byteD buffer pos
      if buffer.length < pos + 1 + name_len then none
      else
        let name := (buffer.drop (pos + 1)).take name_len
        if isValidUTF8 name then
          if buffer.length < pos + 1 + name_len + 4 then none
          else
            let address := leU32 buffer (pos + 1 + name_len)
            match read_symbols_loop buffer (pos + 1 + name_len + 4) count with
            | none => none
            | some (syms, log) => some ((name, address) :: syms, (name, address) :: log)
        else none

/-- Rust `read_symbols`: reads a 4-byte entry count at `offset` (panicking when
    `offset + 4` overruns the buffer), then `count` symbol entries. -/
def read_symbols (buffer : List Nat) (offset : Nat) :
    Option (List (List Nat × Nat) × List (List Nat × Nat)) :=
  if buffer.length < offset + 4 then none
  else read_symbols_loop buffer (offset + 4) (leU32 buffer offset)

/-- The loop body of `read_relocations`, iterated `count` times.  Per entry:
    a 4-byte little-endian `symbol_index` and a 4-byte little-endian site
    `address`; the pair `(symbol_index.to_string(), address)` is pushed onto
    the relocation list. -/
def read_relocations_loop (buffer : List Nat) :
    Nat → Nat → Option (List (List Nat × Nat))
  | _, 0 => some []
  | pos, count + 1 =>
    if buffer.length < pos + 4 then none
    else
      let symbol_index := leU32 buffer pos
      if buffer.length < pos + 8 then none
      else
        let address := leU32 buffer (pos + 4)
        match read_relocations_loop buffer (pos + 8) count with
        | none => none
        | some rest => some ((natDecimal symbol_index, address) :: rest)

/-- Rust `read_relocations`: a 4-byte entry count at `offset`, then the entries. -/
def read_relocations (buffer : List Nat) (offset : Nat) :
    Option (List (List Nat × Nat)) :=
  if buffer.length < offset + 4 then none
  else read_relocations_loop buffer (offset + 4) (leU32 buffer offset)

/-- The `ObjectFile` struct: the symbol map (as its insert sequence), the
    relocation vector and the code bytes. -/
structure ObjectFile where
  symbols : List (List Nat × Nat)
  relocations : List (List Nat × Nat)
  code : List Nat
deriving DecidableEq, Repr

/-- The decoding part of `read_object_file` (file I/O abstracted away: the
    input is the file's byte buffer).  `&buffer[0..17]` panics when the
    buffer is shorter than 17 bytes; `&buffer[code_offset..]` panics when
    `code_offset` exceeds the buffer length. -/
def read_object_file (buffer : List Nat) : Option ObjectFile :=
  if buffer.length < 17 then none
  else
    let header := Header.from_slice (buffer.take 17)
    match read_symbols buffer header.symbol_offset with
    | none => none
    | some (symbols, _log) =>
      match read_relocations buffer header.relocation_offset with
      | none => none
      | some relocations =>
        if buffer.length < header.code_offset then none
        else
          some { symbols := symbols
                 relocations := relocations
                 code := buffer.drop header.code_offset }

/-- Rust `code[address .. address+4].copy_from_slice(&value.to_le_bytes())`:
    `none` models the slice-index panic when `address + 4` exceeds the code
    length (there is no bounds check in `apply_relocations` itself). -/
def writeLE4 (code : List Nat) (address value : Nat) : Option (List Nat) :=
  if address + 4 ≤ code.length then
    some (code.take address ++ toLE4 value ++ code.drop (address + 4))
  else none

/-- The loop of `apply_relocations`: for each `(symbol, address)` pair, patch
    the code at `address` with the symbol's resolved address, or record the
    symbol as unresolved.  Returns the final code and the collected
    unresolved names (in relocation order, duplicates kept, exactly as the
    Rust `Vec` collects them). -/
def apply_relocations_loop (symbols : List (List Nat × Nat)) :
    List (List Nat × Nat) → List Nat → List (List Nat) →
    Option (List Nat × List (List Nat))
  | [], code, unresolved => some (code, unresolved)
  | (symbol, address) :: rest, code, unresolved =>
    match hmLookup symbols symbol with
    | some symbol_address =>
      match writeLE4 code address symbol_address with
      | some patched => apply_relocations_loop symbols rest patched unresolved
      | none => none
    | none => apply_relocations_loop symbols rest code (unresolved ++ [symbol])

/-- Rust `apply_relocations`: the function mutates `code` in place and
    returns `Err("Unresolved symbols: " ++ names.join(", "))` exactly when
    the collected unresolved list is non-empty, `Ok(())` otherwise.  The
    model returns the final code and that list; `none` is a panic. -/
def apply_relocations (code : List Nat) (symbols : List (List Nat × Nat))
    (relocations : List (List Nat × Nat)) : Option (List Nat × List (List Nat)) :=
  apply_relocations_loop symbols relocations code []

/-- The accumulator of `link_object_files`: combined symbol map (insert
    sequence), combined relocation vector, combined code. -/
structure LinkState where
  symbols : List (List Nat × Nat)
  relocations : List (List Nat × Nat)
  code : List Nat
deriving DecidableEq, Repr

/-- One iteration of the merge loop in `link_object_files`.  At the start of
    each iteration `base_address` equals `combined_code.len() as u32` (it is
    0 initially and is reassigned to the new length after each append).
    Symbol addresses and relocation sites are rebased with wrapping `u32`
    addition; the file's code is appended. -/
def mergeFile (st : LinkState) (obj : ObjectFile) : LinkState :=
  let base_address := st.code.length % 4294967296
  { symbols := st.symbols ++
      obj.symbols.map (fun p => (p.1, (p.2 + base_address) % 4294967296))
    relocations := st.relocations ++
      obj.relocations.map (fun p => (p.1, (p.2 + base_address) % 4294967296))
    code := st.code ++ obj.code }

/-- The merge phase of `link_object_files` over already-decoded files. -/
def mergeFiles (files : List ObjectFile) : LinkState :=
  files.foldl mergeFile { symbols := [], relocations := [], code := [] }

/-- Outcome of a link run: `crash` is a panic, `linkFailed` is the
    `exit(1)` path after `apply_relocations` returned `Err` (carrying the
    unresolved names the message is built from) — no output file is created
    on this path — and `written` carries the bytes written to the output
    file. -/
inductive LinkOutcome where
  | crash : LinkOutcome
  | linkFailed : List (List Nat) → LinkOutcome
  | written : List Nat → LinkOutcome
deriving DecidableEq, Repr

/-- Core of `link_object_files` after decoding: merge in input order, apply
    relocations, and only on full success write the combined code out. -/
def linkFiles (files : List ObjectFile) : LinkOutcome :=
  let st := mergeFiles files
  match apply_relocations st.code st.symbols st.relocations with
  | none => .crash
  | some (code2, unresolved) =>
    if unresolved = [] then .written code2 else .linkFailed unresolved

/-- Rust `link_object_files` on the input files' byte buffers (file reading
    abstracted to the buffers themselves). -/
def link_object_files (buffers : List (List Nat)) : LinkOutcome :=
  match buffers.mapM read_object_file with
  | none => .crash
  | some files => linkFiles files

/-- In-order concatenation of the files' code sections (specification value
    for the merged code buffer). -/
def codeConcat : List ObjectFile → List Nat
  | [] => []
  | f :: rest => f.code ++ codeConcat rest

/-- Specification value for the merged relocation vector: each file's sites
    rebased by the running code length (as `u32`), files in order.  `n` is
    the total code length accumulated before the current file. -/
def rebasedRelocs : Nat → List ObjectFile → List (List Nat × Nat)
  | _, [] => []
  | n, f :: rest =>
    f.relocations.map (fun p => (p.1, (p.2 + n % 4294967296) % 4294967296)) ++
      rebasedRelocs (n + f.code.length) rest

/-- Header layout as the specification document describes it: five `u32`
    little-endian fields in file order starting at byte 0.  (Spec-side
    definition, used only to compare against `Header.from_slice`.) -/
structure SpecHeader where
  symbol_offset : Nat
  symbol_count : Nat
  relocation_offset : Nat
  relocation_count : Nat
  code_offset : Nat
deriving DecidableEq, Repr

/-- The specification document's header decoding: five consecutive `u32`
    fields from the start of the buffer (a 20-byte header). -/
def specHeaderFromSlice (slice : List Nat) : SpecHeader :=
  { symbol_offset := leU32 slice 0
    symbol_count := leU32 slice 4
    relocation_offset := leU32 slice 8
    relocation_count := leU32 slice 12
    code_offset := leU32 slice 16 }

/-- Sites list as the specification document describes a relocation entry's
    tail: `k` consecutive 4-byte little-endian site offsets from `pos`.
    (Spec-side definition for comparison only.) -/
def specSites (buffer : List Nat) : Nat → Nat → List Nat
  | _, 0 => []
  | pos, k + 1 => leU32 buffer pos :: specSites buffer (pos + 4) k

/-- Relocation entries as the specification document describes them: per
    entry, 1 length byte, that many name bytes, a 4-byte site count, then
    that many 4-byte site offsets.  (Spec-side definition for comparison
    only.) -/
def specRelocEntries (buffer : List Nat) : Nat → Nat → List (List Nat × List Nat)
  | _, 0 => []
  | pos, count + 1 =>
    let len := byteD buffer pos
    let name := (buffer.drop (pos + 1)).take len
    let nsites := leU32 buffer (pos + 1 + len)
    (name, specSites buffer (pos + 1 + len + 4) nsites) ::
      specRelocEntries buffer (pos + 1 + len + 4 + 4 * nsites) count

/-! ### List access helpers -/

theorem getD_take_eq (l : List Nat) (n i : Nat) (h : i < n) :
    (l.take n).getD i 0 = l.getD i 0 := by
  rcases Nat.lt_or_ge i l.length with hi | hi
  · rw [List.getD_eq_getElem _ _ (by simp; omega), List.getD_eq_getElem _ _ hi]
    exact List.getElem_take ..
  · rw [List.getD_eq_default _ _ (by simp; omega), List.getD_eq_default _ _ hi]

theorem getD_drop_eq (l : List Nat) (n i : Nat) :
    (l.drop n).getD i 0 = l.getD (n + i) 0 := by
  rcases Nat.lt_or_ge (n + i) l.length with hi | hi
  · rw [List.getD_eq_getElem _ _ (by simp; omega), List.getD_eq_getElem _ _ hi]
    exact List.getElem_drop ..
  · rw [List.getD_eq_default _ _ (by simp; omega), List.getD_eq_default _ _ hi]

/-! ### `hmLookup` (HashMap) lemmas -/

theorem hmLookup_append (a b : List (List Nat × Nat)) (k : List Nat) :
    hmLookup (a ++ b) k =
      match hmLookup b k with
      | some v => some v
      | none => hmLookup a k := by
  induction a with
  | nil =>
    simp only [List.nil_append, hmLookup]
    cases hmLookup b k <;> rfl
  | cons p a ih =>
    simp only [List.cons_append, hmLookup, List.append_eq]
    rw [ih]
    cases hmLookup b k
    · cases hmLookup a k <;> rfl
    · rfl

theorem hmLookup_map_val (m : List (List Nat × Nat)) (f : Nat → Nat) (k : List Nat) :
    hmLookup (m.map (fun p => (p.1, f p.2))) k = (hmLookup m k).map f := by
  induction m with
  | nil => rfl
  | cons p m ih =>
    simp only [List.map_cons, hmLookup, ih]
    cases hmLookup m k with
    | some v => rfl
    | none => by_cases h : p.1 = k <;> simp [h]

theorem hmLookup_mem {m : List (List Nat × Nat)} {k : List Nat} {v : Nat}
    (h : hmLookup m k = some v) : (k, v) ∈ m := by
  induction m with
  | nil => simp [hmLookup] at h
  | cons p m ih =>
    simp only [hmLookup] at h
    cases hE : hmLookup m k with
    | some w =>
      rw [hE] at h
      exact List.mem_cons_of_mem _ (ih (hE.trans h))
    | none =>
      rw [hE] at h
      by_cases hk : p.1 = k
      · rw [hk, if_pos rfl] at h
        obtain rfl := Option.some.inj h
        have hp : (k, p.2) = p := by rw [← hk]
        exact hp ▸ List.mem_cons_self _ _
      · simp [hk] at h

theorem hmLookup_eq_none {m : List (List Nat × Nat)} {k : List Nat} :
    hmLookup m k = none ↔ k ∉ m.map Prod.fst := by
  induction m with
  | nil => simp [hmLookup]
  | cons p m ih =>
    simp only [hmLookup, List.map_cons, List.mem_cons]
    cases hE : hmLookup m k with
    | some w =>
      have : k ∈ m.map Prod.fst := by
        by_contra hc
        exact Option.noConfusion ((ih.mpr hc).symm.trans hE)
      simp [this]
    | none =>
      have hk : k ∉ m.map Prod.fst := ih.mp hE
      by_cases h : p.1 = k <;> simp [h, hk]
      exact fun he => h he.symm

theorem hmLookup_of_mem_nodup {m : List (List Nat × Nat)} {k : List Nat} {v : Nat}
    (hm : (k, v) ∈ m) (hn : (m.map Prod.fst).Nodup) : hmLookup m k = some v := by
  induction m with
  | nil => simp at hm
  | cons p m ih =>
    simp only [List.map_cons, List.nodup_cons] at hn
    rcases List.mem_cons.mp hm with h | h
    · obtain rfl := h.symm
      have : hmLookup m k = none := hmLookup_eq_none.mpr hn.1
      simp [hmLookup, this]
    · have := ih h hn.2
      simp [hmLookup, this]

theorem hmLookup_perm {m1 m2 : List (List Nat × Nat)} (hp : m1.Perm m2)
    (hn : (m1.map Prod.fst).Nodup) (k : List Nat) :
    hmLookup m1 k = hmLookup m2 k := by
  have hn2 : (m2.map Prod.fst).Nodup := ((hp.map Prod.fst).nodup_iff).mp hn
  cases hE : hmLookup m1 k with
  | some v =>
    exact (hmLookup_of_mem_nodup (hp.mem_iff.mp (hmLookup_mem hE)) hn2).symm
  | none =>
    have : k ∉ m2.map Prod.fst := fun hc =>
      hmLookup_eq_none.mp hE ((hp.map Prod.fst).mem_iff.mpr hc)
    exact (hmLookup_eq_none.mpr this).symm

/-! ### `writeLE4` lemmas -/

theorem writeLE4_length {code : List Nat} {a v : Nat} {out : List Nat}
    (h : writeLE4 code a v = some out) : out.length = code.length := by
  unfold writeLE4 at h
  split at h
  · obtain rfl := Option.some.inj h
    simp only [List.length_append, List.length_take, List.length_drop, toLE4,
      List.length_cons, List.length_nil]
    omega
  · exact Option.noConfusion h

theorem writeLE4_bound {code : List Nat} {a v : Nat} {out : List Nat}
    (h : writeLE4 code a v = some out) : a + 4 ≤ code.length := by
  unfold writeLE4 at h
  split at h
  · assumption
  · exact Option.noConfusion h

theorem writeLE4_getD {code : List Nat} {a v : Nat} {out : List Nat}
    (h : writeLE4 code a v = some out) (i : Nat) :
    out.getD i 0 = if a ≤ i ∧ i < a + 4 then (toLE4 v).getD (i - a) 0 else code.getD i 0 := by
  have hb : a + 4 ≤ code.length := writeLE4_bound h
  unfold writeLE4 at h
  rw [if_pos hb] at h
  obtain rfl := Option.some.inj h
  have hta : (code.take a).length = a := by simp; omega
  have htv : (toLE4 v).length = 4 := by simp [toLE4]
  have hL1 : (code.take a ++ toLE4 v).length = a + 4 := by
    rw [List.length_append, hta, htv]
  by_cases h1 : i < a
  · rw [if_neg (by omega), List.getD_append _ _ _ _ (by omega),
      List.getD_append _ _ _ _ (by omega), getD_take_eq _ _ _ h1]
  · by_cases h2 : i < a + 4
    · rw [if_pos ⟨by omega, h2⟩, List.getD_append _ _ _ _ (by omega),
        List.getD_append_right _ _ _ _ (by omega), hta]
    · rw [if_neg (by omega), List.getD_append_right _ _ _ _ (by omega), hL1, getD_drop_eq]
      congr 1
      omega

theorem writeLE4_slice4 {code : List Nat} {a v : Nat} {out : List Nat}
    (h : writeLE4 code a v = some out) : slice4 out a = toLE4 v := by
  simp only [slice4, writeLE4_getD h]
  rw [if_pos ⟨by omega, by omega⟩, if_pos ⟨by omega, by omega⟩,
    if_pos ⟨by omega, by omega⟩, if_pos ⟨by omega, by omega⟩]
  simp [toLE4]

theorem writeLE4_slice4_disjoint {code : List Nat} {a v : Nat} {out : List Nat}
    (h : writeLE4 code a v = some out) {s : Nat} (hd : a + 4 ≤ s ∨ s + 4 ≤ a) :
    slice4 out s = slice4 code s := by
  simp only [slice4, writeLE4_getD h]
  rw [if_neg (by omega), if_neg (by omega), if_neg (by omega), if_neg (by omega)]

/-! ### `apply_relocations_loop` lemmas -/

theorem apply_relocations_loop_length {symbols : List (List Nat × Nat)}
    {rels : List (List Nat × Nat)} {code : List Nat} {u : List (List Nat)}
    {out : List Nat × List (List Nat)}
    (h : apply_relocations_loop symbols rels code u = some out) :
    out.1.length = code.length := by
  induction rels generalizing code u with
  | nil =>
    simp only [apply_relocations_loop] at h
    obtain rfl := Option.some.inj h
    rfl
  | cons r rest ih =>
    obtain ⟨sym, addr⟩ := r
    simp only [apply_relocations_loop] at h
    cases hL : hmLookup symbols sym with
    | some sa =>
      simp only [hL] at h
      cases hW : writeLE4 code addr sa with
      | some patched =>
        simp only [hW] at h
        exact (ih h).trans (writeLE4_length hW)
      | none =>
        simp only [hW] at h
        exact Option.noConfusion h
    | none =>
      simp only [hL] at h
      exact ih h

theorem apply_relocations_loop_append (symbols : List (List Nat × Nat))
    (r1 r2 : List (List Nat × Nat)) (code : List Nat) (u : List (List Nat)) :
    apply_relocations_loop symbols (r1 ++ r2) code u =
      match apply_relocations_loop symbols r1 code u with
      | none => none
      | some (c1, u1) => apply_relocations_loop symbols r2 c1 u1 := by
  induction r1 generalizing code u with
  | nil => rfl
  | cons r rest ih =>
    obtain ⟨sym, addr⟩ := r
    simp only [List.cons_append, List.append_eq, apply_relocations_loop]
    cases hE : hmLookup symbols sym with
    | some sa =>
      simp only [hE]
      cases hW : writeLE4 code addr sa with
      | some patched =>
        simp only [hW]
        exact ih patched u
      | none => simp only [hW]
    | none =>
      simp only [hE]
      exact ih code (u ++ [sym])

theorem apply_relocations_loop_slice4 {symbols : List (List Nat × Nat)}
    {rels : List (List Nat × Nat)} {code : List Nat} {u : List (List Nat)}
    {out : List Nat × List (List Nat)} {s : Nat}
    (h : apply_relocations_loop symbols rels code u = some out)
    (hd : ∀ p ∈ rels, (hmLookup symbols p.1).isSome = true → p.2 + 4 ≤ s ∨ s + 4 ≤ p.2) :
    slice4 out.1 s = slice4 code s := by
  induction rels generalizing code u with
  | nil =>
    simp only [apply_relocations_loop] at h
    obtain rfl := Option.some.inj h
    rfl
  | cons r rest ih =>
    obtain ⟨sym, addr⟩ := r
    simp only [apply_relocations_loop] at h
    cases hL : hmLookup symbols sym with
    | some sa =>
      simp only [hL] at h
      cases hW : writeLE4 code addr sa with
      | some patched =>
        simp only [hW] at h
        have hdr : addr + 4 ≤ s ∨ s + 4 ≤ addr :=
          hd (sym, addr) (List.mem_cons_self _ _) (by rw [hL]; rfl)
        exact (ih h (fun p hp => hd p (List.mem_cons_of_mem _ hp))).trans
          (writeLE4_slice4_disjoint hW hdr)
      | none =>
        simp only [hW] at h
        exact Option.noConfusion h
    | none =>
      simp only [hL] at h
      exact ih h (fun p hp => hd p (List.mem_cons_of_mem _ hp))

theorem apply_relocations_loop_unresolved {symbols : List (List Nat × Nat)}
    {rels : List (List Nat × Nat)} {code : List Nat} {u : List (List Nat)}
    {out : List Nat × List (List Nat)}
    (h : apply_relocations_loop symbols rels code u = some out) :
    out.2 = u ++ (rels.filter (fun p => (hmLookup symbols p.1).isNone)).map Prod.fst := by
  induction rels generalizing code u with
  | nil =>
    simp only [apply_relocations_loop] at h
    obtain rfl := Option.some.inj h
    simp
  | cons r rest ih =>
    obtain ⟨sym, addr⟩ := r
    simp only [apply_relocations_loop] at h
    cases hL : hmLookup symbols sym with
    | some sa =>
      simp only [hL] at h
      cases hW : writeLE4 code addr sa with
      | some patched =>
        simp only [hW] at h
        rw [ih h]
        simp [List.filter_cons, hL]
      | none =>
        simp only [hW] at h
        exact Option.noConfusion h
    | none =>
      simp only [hL] at h
      rw [ih h]
      simp [List.filter_cons, hL]

theorem apply_relocations_loop_filter {symbols : List (List Nat × Nat)}
    {rels : List (List Nat × Nat)} {code : List Nat} {u : List (List Nat)}
    {out : List Nat × List (List Nat)}
    (h : apply_relocations_loop symbols rels code u = some out) :
    apply_relocations_loop symbols
      (rels.filter (fun p => (hmLookup symbols p.1).isSome)) code [] = some (out.1, []) := by
  induction rels generalizing code u with
  | nil =>
    simp only [apply_relocations_loop] at h
    obtain rfl := Option.some.inj h
    rfl
  | cons r rest ih =>
    obtain ⟨sym, addr⟩ := r
    simp only [apply_relocations_loop] at h
    cases hL : hmLookup symbols sym with
    | some sa =>
      simp only [hL] at h
      cases hW : writeLE4 code addr sa with
      | some patched =>
        simp only [hW] at h
        rw [List.filter_cons_of_pos (by simp [hL])]
        simp only [apply_relocations_loop, hL, hW]
        exact ih h
      | none =>
        simp only [hW] at h
        exact Option.noConfusion h
    | none =>
      simp only [hL] at h
      rw [List.filter_cons_of_neg (by simp [hL])]
      exact ih h

theorem apply_relocations_loop_total {symbols : List (List Nat × Nat)}
    {rels : List (List Nat × Nat)} {code : List Nat}
    (hb : ∀ p ∈ rels, (hmLookup symbols p.1).isSome = true → p.2 + 4 ≤ code.length)
    (u : List (List Nat)) :
    ∃ out, apply_relocations_loop symbols rels code u = some out := by
  induction rels generalizing code u with
  | nil => exact ⟨(code, u), rfl⟩
  | cons r rest ih =>
    obtain ⟨sym, addr⟩ := r
    simp only [apply_relocations_loop]
    cases hL : hmLookup symbols sym with
    | some sa =>
      simp only [hL]
      have hw : addr + 4 ≤ code.length :=
        hb (sym, addr) (List.mem_cons_self _ _) (by rw [hL]; rfl)
      cases hW : writeLE4 code addr sa with
      | some patched =>
        simp only [hW]
        exact ih (fun p hp hx => by
          rw [writeLE4_length hW]
          exact hb p (List.mem_cons_of_mem _ hp) hx) u
      | none =>
        unfold writeLE4 at hW
        rw [if_pos hw] at hW
        exact Option.noConfusion hW
    | none =>
      simp only [hL]
      exact ih (fun p hp hx => hb p (List.mem_cons_of_mem _ hp) hx) (u ++ [sym])

theorem apply_relocations_loop_crash {symbols : List (List Nat × Nat)}
    {rels : List (List Nat × Nat)} {code : List Nat} {sym : List Nat} {S x : Nat}
    (hmem : (sym, S) ∈ rels) (hx : hmLookup symbols sym = some x)
    (hoob : code.length < S + 4) (u : List (List Nat)) :
    apply_relocations_loop symbols rels code u = none := by
  induction rels generalizing code u with
  | nil => simp at hmem
  | cons r rest ih =>
    obtain ⟨sym2, addr2⟩ := r
    simp only [apply_relocations_loop]
    rcases List.mem_cons.mp hmem with he | hm
    · injection he with h1 h2
      subst h1
      subst h2
      simp only [hx]
      have hN : writeLE4 code S x = none := by
        unfold writeLE4
        rw [if_neg (by omega)]
      simp only [hN]
    · cases hL : hmLookup symbols sym2 with
      | some sa =>
        simp only [hL]
        cases hW : writeLE4 code addr2 sa with
        | some patched =>
          simp only [hW]
          exact ih hm (by rw [writeLE4_length hW]; exact hoob) u
        | none => simp only [hW]
      | none =>
        simp only [hL]
        exact ih hm hoob (u ++ [sym2])

theorem apply_relocations_loop_congr {s1 s2 : List (List Nat × Nat)}
    (hs : ∀ k, hmLookup s1 k = hmLookup s2 k) (rels : List (List Nat × Nat))
    (code : List Nat) (u : List (List Nat)) :
    apply_relocations_loop s1 rels code u = apply_relocations_loop s2 rels code u := by
  induction rels generalizing code u with
  | nil => rfl
  | cons r rest ih =>
    obtain ⟨sym, addr⟩ := r
    simp only [apply_relocations_loop, hs sym]
    cases hE : hmLookup s2 sym with
    | some sa =>
      simp only [hE]
      cases hW : writeLE4 code addr sa with
      | some patched =>
        simp only [hW]
        exact ih patched u
      | none => simp only [hW]
    | none =>
      simp only [hE]
      exact ih code (u ++ [sym])

/-! ### Merge lemmas -/

theorem hmLookup_map_rebase (m : List (List Nat × Nat)) (c : Nat) (k : List Nat) :
    hmLookup (m.map (fun p => (p.1, (p.2 + c) % 4294967296))) k =
      (hmLookup m k).map (fun v => (v + c) % 4294967296) :=
  hmLookup_map_val m (fun v => (v + c) % 4294967296) k

theorem mergeFile_code (st : LinkState) (obj : ObjectFile) :
    (mergeFile st obj).code = st.code ++ obj.code := rfl

theorem mergeFile_symbols (st : LinkState) (obj : ObjectFile) :
    (mergeFile st obj).symbols = st.symbols ++
      obj.symbols.map (fun p => (p.1, (p.2 + st.code.length % 4294967296) % 4294967296)) := rfl

theorem mergeFile_relocations (st : LinkState) (obj : ObjectFile) :
    (mergeFile st obj).relocations = st.relocations ++
      obj.relocations.map (fun p => (p.1, (p.2 + st.code.length % 4294967296) % 4294967296)) := rfl

theorem foldl_mergeFile_code (files : List ObjectFile) :
    ∀ st : LinkState, (files.foldl mergeFile st).code = st.code ++ codeConcat files := by
  induction files with
  | nil => intro st; simp [codeConcat]
  | cons f rest ih =>
    intro st
    rw [List.foldl_cons, ih, mergeFile_code, codeConcat, List.append_assoc]

theorem foldl_mergeFile_relocations (files : List ObjectFile) :
    ∀ st : LinkState, (files.foldl mergeFile st).relocations =
      st.relocations ++ rebasedRelocs st.code.length files := by
  induction files with
  | nil => intro st; simp [rebasedRelocs]
  | cons f rest ih =>
    intro st
    have hc : (mergeFile st f).code.length = st.code.length + f.code.length := by
      rw [mergeFile_code, List.length_append]
    rw [List.foldl_cons, ih, mergeFile_relocations, rebasedRelocs, hc, List.append_assoc]

theorem foldl_mergeFile_lookup_none (files : List ObjectFile) (name : List Nat) :
    ∀ st : LinkState, (∀ f ∈ files, hmLookup f.symbols name = none) →
      hmLookup (files.foldl mergeFile st).symbols name = hmLookup st.symbols name := by
  induction files with
  | nil => intro st _; rfl
  | cons f rest ih =>
    intro st hall
    rw [List.foldl_cons, ih _ (fun g hg => hall g (List.mem_cons_of_mem _ hg)),
      mergeFile_symbols, hmLookup_append, hmLookup_map_rebase, hall f (List.mem_cons_self _ _)]
    rfl

theorem foldl_mergeFile_lookup_last (post : List ObjectFile) (fi : ObjectFile)
    (name : List Nat) (a : Nat) (st : LinkState)
    (hfi : hmLookup fi.symbols name = some a)
    (hpost : ∀ f ∈ post, hmLookup f.symbols name = none) :
    hmLookup ((fi :: post).foldl mergeFile st).symbols name =
      some ((a + st.code.length % 4294967296) % 4294967296) := by
  rw [List.foldl_cons, foldl_mergeFile_lookup_none post name _ hpost,
    mergeFile_symbols, hmLookup_append, hmLookup_map_rebase, hfi]
  rfl

theorem foldl_mergeFile_invariant {fs1 fs2 : List ObjectFile}
    (h : List.Forall₂ (fun o1 o2 => o1.symbols.Perm o2.symbols ∧
      (o1.symbols.map Prod.fst).Nodup ∧ o1.relocations = o2.relocations ∧
      o1.code = o2.code) fs1 fs2) :
    ∀ st1 st2 : LinkState, st1.code = st2.code → st1.relocations = st2.relocations →
      (∀ k, hmLookup st1.symbols k = hmLookup st2.symbols k) →
      (fs1.foldl mergeFile st1).code = (fs2.foldl mergeFile st2).code ∧
      (fs1.foldl mergeFile st1).relocations = (fs2.foldl mergeFile st2).relocations ∧
      (∀ k, hmLookup (fs1.foldl mergeFile st1).symbols k =
            hmLookup (fs2.foldl mergeFile st2).symbols k) := by
  induction h with
  | nil =>
    intro st1 st2 hc hr hs
    exact ⟨hc, hr, hs⟩
  | @cons a b l1 l2 hR hrest ih =>
    intro st1 st2 hc hr hs
    rw [List.foldl_cons, List.foldl_cons]
    obtain ⟨hperm, hnodup, hrel, hcode⟩ := hR
    apply ih
    · rw [mergeFile_code, mergeFile_code, hc, hcode]
    · rw [mergeFile_relocations, mergeFile_relocations, hc, hr, hrel]
    · intro k
      rw [mergeFile_symbols, mergeFile_symbols, hmLookup_append, hmLookup_append,
        hmLookup_map_rebase, hmLookup_map_rebase, hc, hmLookup_perm hperm hnodup k]
      cases hmLookup b.symbols k with
      | some v => rfl
      | none => exact hs k

/-! ### Auxiliary facts for the claims -/

theorem leU32_take {b : List Nat} {n i : Nat} (h : i + 4 ≤ n) :
    leU32 (b.take n) i = leU32 b i := by
  unfold leU32 byteD
  rw [getD_take_eq _ _ _ (by omega), getD_take_eq _ _ _ (by omega),
    getD_take_eq _ _ _ (by omega), getD_take_eq _ _ _ (by omega)]

/-! ### Claims -/

/-- Claim C1, counterexample: on a concrete 20-byte buffer the decoded header
    disagrees with the claimed five-field layout starting at byte 0 — the
    code takes `symbol_offset` from bytes 5–8 (here 2), not bytes 0–3
    (here 1). -/
theorem c1_counterexample :
    (Header.from_slice [1,0,0,0,0, 2,0,0,0, 3,0,0,0, 4,0,0,0, 0,0,0]).symbol_offset ≠
      (specHeaderFromSlice [1,0,0,0,0, 2,0,0,0, 3,0,0,0, 4,0,0,0, 0,0,0]).symbol_offset := by
  decide

/-- Claim C1, amended: the decoder reads a fixed 17-byte header prefix; bytes
    0–4 are ignored and the three u32 little-endian fields at byte offsets 5,
    9 and 13 are `symbol_offset`, `relocation_offset` and `code_offset`.  The
    symbol and relocation counts are not header fields: each is read inline
    as the 4-byte u32 at the start of its table. -/
theorem c1_amended (buffer : List Nat) (h17 : 17 ≤ buffer.length) :
    Header.from_slice (buffer.take 17) =
      { symbol_offset := leU32 buffer 5, relocation_offset := leU32 buffer 9,
        code_offset := leU32 buffer 13 } ∧
    (∀ off : Nat, buffer.length < off + 4 ∨
      (read_symbols buffer off = read_symbols_loop buffer (off + 4) (leU32 buffer off) ∧
       read_relocations buffer off = read_relocations_loop buffer (off + 4) (leU32 buffer off))) := by
  constructor
  · unfold Header.from_slice
    rw [leU32_take (by omega), leU32_take (by omega), leU32_take (by omega)]
  · intro off
    by_cases hoff : buffer.length < off + 4
    · exact Or.inl hoff
    · refine Or.inr ⟨?_, ?_⟩
      · unfold read_symbols
        rw [if_neg hoff]
      · unfold read_relocations
        rw [if_neg hoff]

theorem c1_amended_witness :
    Header.from_slice (([9,9,9,9,9, 1,0,0,0, 2,0,0,0, 3,0,0,0, 0] : List Nat).take 17) =
      { symbol_offset := 1, relocation_offset := 2, code_offset := 3 } :=
  (c1_amended [9,9,9,9,9, 1,0,0,0, 2,0,0,0, 3,0,0,0, 0] (by decide)).1.trans (by decide)

/-- Claim C2, counterexample: on a concrete buffer whose single relocation
    entry would, under the claimed length-prefixed format, bind name "hi"
    (bytes [104, 105]) to site list [9], the decoder instead reads a 4-byte
    symbol index (23685122) and a single 4-byte site, producing the decimal
    name "23685122" (bytes [50,51,54,56,53,49,50,50]) — not the claimed
    name-keyed site-list mapping. -/
theorem c2_counterexample :
    read_relocations [1,0,0,0, 2,104,105, 1,0,0,0, 9,0,0,0] 0 =
      some [([50,51,54,56,53,49,50,50], 150994944)] ∧
    specRelocEntries [1,0,0,0, 2,104,105, 1,0,0,0, 9,0,0,0] 4 1 = [([104,105], [9])] ∧
    ([50,51,54,56,53,49,50,50] : List Nat) ≠ [104,105] := by
  refine ⟨by decide, by decide, by decide⟩

/-- Claim C2, amended: each relocation table entry is a 4-byte little-endian
    symbol index followed by a single 4-byte little-endian site offset; the
    decoder converts the index to its decimal-string name and pushes the
    (name, site) pair onto the relocation list, one site per entry, repeated
    entries appearing as repeated list elements. -/
theorem c2_amended (buffer : List Nat) (pos count : Nat) (h : pos + 8 ≤ buffer.length) :
    read_relocations_loop buffer pos (count + 1) =
      (read_relocations_loop buffer (pos + 8) count).map
        (fun rest => (natDecimal (leU32 buffer pos), leU32 buffer (pos + 4)) :: rest) := by
  simp only [read_relocations_loop]
  rw [if_neg (by omega), if_neg (by omega)]
  cases read_relocations_loop buffer (pos + 8) count <;> rfl

theorem c2_amended_witness :
    read_relocations_loop [5,0,0,0, 7,0,0,0] 0 1 = some [([53], 7)] :=
  (c2_amended [5,0,0,0, 7,0,0,0] 0 0 (by decide)).trans (by decide)

/-- Claim C3: merging in order, a symbol defined in object `i` at local
    address `a` (its file's binding, not redefined by any later file) appears
    in the combined symbol table at `a` plus the sum of the code lengths of
    objects `0 .. i-1`; every relocation site is rebased by the running code
    length in the same way; and the combined code buffer is the in-order
    concatenation of all files' code bytes. -/
theorem c3_merge_arithmetic (pre : List ObjectFile) (fi : ObjectFile)
    (post : List ObjectFile) (name : List Nat) (a : Nat)
    (hfi : hmLookup fi.symbols name = some a)
    (hpost : ∀ f ∈ post, hmLookup f.symbols name = none)
    (hfit : a + (codeConcat pre).length < 4294967296) :
    hmLookup (mergeFiles (pre ++ fi :: post)).symbols name =
      some (a + (codeConcat pre).length) ∧
    (mergeFiles (pre ++ fi :: post)).code = codeConcat (pre ++ fi :: post) ∧
    (mergeFiles (pre ++ fi :: post)).relocations = rebasedRelocs 0 (pre ++ fi :: post) := by
  refine ⟨?_, ?_, ?_⟩
  · unfold mergeFiles
    rw [List.foldl_append, foldl_mergeFile_lookup_last post fi name a _ hfi hpost,
      foldl_mergeFile_code]
    have hL : (([] : List Nat) ++ codeConcat pre).length = (codeConcat pre).length := by
      rw [List.nil_append]
    rw [hL]
    congr 1
    omega
  · unfold mergeFiles
    rw [foldl_mergeFile_code, List.nil_append]
  · unfold mergeFiles
    rw [foldl_mergeFile_relocations, List.nil_append]
    rfl

theorem c3_witness :
    hmLookup (mergeFiles [⟨[], [], [7,7,7]⟩, ⟨[([97], 1)], [([97], 4)], [8,8]⟩]).symbols [97] =
      some 4 ∧
    (mergeFiles [⟨[], [], [7,7,7]⟩, ⟨[([97], 1)], [([97], 4)], [8,8]⟩]).code =
      codeConcat [⟨[], [], [7,7,7]⟩, ⟨[([97], 1)], [([97], 4)], [8,8]⟩] ∧
    (mergeFiles [⟨[], [], [7,7,7]⟩, ⟨[([97], 1)], [([97], 4)], [8,8]⟩]).relocations =
      rebasedRelocs 0 [⟨[], [], [7,7,7]⟩, ⟨[([97], 1)], [([97], 4)], [8,8]⟩] :=
  c3_merge_arithmetic [⟨[], [], [7,7,7]⟩] ⟨[([97], 1)], [([97], 4)], [8,8]⟩ [] [97] 1
    (by decide) (by decide) (by decide)

/-- Claim C4: if the combined table resolves `sym` to address `X` and the
    relocation list records site `S` for `sym` (with later relocations that
    resolve writing only ranges disjoint from `S .. S+3`), then after a
    successful `apply_relocations` run the 4 code bytes at `S .. S+3` are the
    little-endian encoding of `X`; each listed site receives its own write. -/
theorem c4_patch_correctness (code : List Nat) (symbols : List (List Nat × Nat))
    (l1 l2 : List (List Nat × Nat)) (sym : List Nat) (S X : Nat)
    (out : List Nat × List (List Nat))
    (hX : hmLookup symbols sym = some X)
    (hd : ∀ p ∈ l2, (hmLookup symbols p.1).isSome = true → p.2 + 4 ≤ S ∨ S + 4 ≤ p.2)
    (h : apply_relocations code symbols (l1 ++ (sym, S) :: l2) = some out) :
    slice4 out.1 S = toLE4 X := by
  unfold apply_relocations at h
  rw [apply_relocations_loop_append] at h
  cases hE1 : apply_relocations_loop symbols l1 code [] with
  | none =>
    simp only [hE1] at h
    exact Option.noConfusion h
  | some r1 =>
    simp only [hE1] at h
    obtain ⟨c1, u1⟩ := r1
    simp only [apply_relocations_loop, hX] at h
    cases hW : writeLE4 c1 S X with
    | none =>
      simp only [hW] at h
      exact Option.noConfusion h
    | some c2 =>
      simp only [hW] at h
      exact (apply_relocations_loop_slice4 h hd).trans (writeLE4_slice4 hW)

theorem c4_witness : slice4 [0,5,0,0,0,6,0,0,0] 1 = toLE4 5 :=
  c4_patch_correctness [0,0,0,0,0,0,0,0,0] [([97], 5), ([98], 6)] [] [([98], 5)]
    [97] 1 5 ([0,5,0,0,0,6,0,0,0], []) (by decide) (by decide) (by decide)

/-- Claim C5: when at least one relocation references a name missing from
    the combined symbol table, the run ends with a non-empty unresolved list
    (the single aggregated `Err` message joins exactly these names, so every
    missing name is mentioned) and the final code equals the code produced by
    the resolvable relocations alone — no site of a missing symbol is
    patched. -/
theorem c5_aggregated_failure (code : List Nat) (symbols rels : List (List Nat × Nat))
    (out : List Nat × List (List Nat))
    (h : apply_relocations code symbols rels = some out)
    (hmiss : ∃ p ∈ rels, hmLookup symbols p.1 = none) :
    out.2 ≠ [] ∧
    (∀ p ∈ rels, hmLookup symbols p.1 = none → p.1 ∈ out.2) ∧
    apply_relocations code symbols (rels.filter (fun p => (hmLookup symbols p.1).isSome)) =
      some (out.1, []) := by
  have hu := apply_relocations_loop_unresolved h
  rw [List.nil_append] at hu
  refine ⟨?_, ?_, apply_relocations_loop_filter h⟩
  · obtain ⟨p, hp, hpn⟩ := hmiss
    rw [hu]
    intro hc
    have hm : p.1 ∈ (rels.filter fun q => (hmLookup symbols q.1).isNone).map Prod.fst :=
      List.mem_map_of_mem _ (List.mem_filter.mpr ⟨hp, by simp [hpn]⟩)
    rw [hc] at hm
    simp at hm
  · intro p hp hpn
    rw [hu]
    exact List.mem_map_of_mem _ (List.mem_filter.mpr ⟨hp, by simp [hpn]⟩)

theorem c5_witness :
    (([[97], [98]] : List (List Nat)) ≠ []) ∧
    (∀ p ∈ ([([97], 0), ([98], 0)] : List (List Nat × Nat)),
      hmLookup [([99], 1)] p.1 = none → p.1 ∈ ([[97], [98]] : List (List Nat))) ∧
    apply_relocations [5,5,5,5] [([99], 1)]
      (([([97], 0), ([98], 0)] : List (List Nat × Nat)).filter
        (fun p => (hmLookup [([99], 1)] p.1).isSome)) = some ([5,5,5,5], []) :=
  c5_aggregated_failure [5,5,5,5] [([99], 1)] [([97], 0), ([98], 0)]
    ([5,5,5,5], [[97], [98]]) (by decide) ⟨([97], 0), by decide, by decide⟩

/-- Claim C6: an output is written only after a fully successful resolve: if
    the link run reports `written c`, decoding succeeded and
    `apply_relocations` returned with an empty unresolved list; hence on a
    resolution failure (`linkFailed`, the `exit(1)` path) no output file is
    created or written. -/
theorem c6_no_output_on_failure (buffers : List (List Nat)) (c : List Nat)
    (h : link_object_files buffers = LinkOutcome.written c) :
    ∃ files, buffers.mapM read_object_file = some files ∧
      apply_relocations (mergeFiles files).code (mergeFiles files).symbols
        (mergeFiles files).relocations = some (c, []) := by
  unfold link_object_files at h
  cases hM : buffers.mapM read_object_file with
  | none =>
    rw [hM] at h
    exact absurd h (by simp)
  | some files =>
    rw [hM] at h
    refine ⟨files, rfl, ?_⟩
    simp only [linkFiles] at h
    cases hA : apply_relocations (mergeFiles files).code (mergeFiles files).symbols
        (mergeFiles files).relocations with
    | none =>
      simp only [hA] at h
      exact absurd h (by simp)
    | some r =>
      obtain ⟨c2, unresolved⟩ := r
      simp only [hA] at h
      by_cases hu : unresolved = []
      · rw [if_pos hu] at h
        cases h
        rw [hu]
      · rw [if_neg hu] at h
        exact absurd h (by simp)

theorem c6_witness :
    ∃ files,
      ([[0,0,0,0,0, 17,0,0,0, 27,0,0,0, 39,0,0,0, 1,0,0,0, 1,55, 0,0,0,0,
         1,0,0,0, 7,0,0,0, 0,0,0,0, 1,2,3,4]] : List (List Nat)).mapM read_object_file =
        some files ∧
      apply_relocations (mergeFiles files).code (mergeFiles files).symbols
        (mergeFiles files).relocations = some ([0,0,0,0], []) :=
  c6_no_output_on_failure
    [[0,0,0,0,0, 17,0,0,0, 27,0,0,0, 39,0,0,0, 1,0,0,0, 1,55, 0,0,0,0,
      1,0,0,0, 7,0,0,0, 0,0,0,0, 1,2,3,4]] [0,0,0,0] (by decide)

/-- Claim C7: a symbol table entry is 1 length byte, that many name bytes,
    then 4 little-endian address bytes, with the cursor advancing past all of
    them — provided the name bytes are valid UTF-8, for
    `String::from_utf8(..).unwrap()` aborts the decode on an invalid name
    (checked before the address bounds check); within one table a later entry
    for the same name overrides the earlier one in the resulting map; and
    across merged files a later file's definition silently replaces an
    earlier file's in the combined table. -/
theorem c7_symbol_table_semantics :
    (∀ (buffer : List Nat) (pos count : Nat),
      pos + 1 + byteD buffer pos + 4 ≤ buffer.length →
      isValidUTF8 ((buffer.drop (pos + 1)).take (byteD buffer pos)) = true →
      read_symbols_loop buffer pos (count + 1) =
        (read_symbols_loop buffer (pos + 1 + byteD buffer pos + 4) count).map
          (fun r =>
            (((buffer.drop (pos + 1)).take (byteD buffer pos),
                leU32 buffer (pos + 1 + byteD buffer pos)) :: r.1,
             ((buffer.drop (pos + 1)).take (byteD buffer pos),
                leU32 buffer (pos + 1 + byteD buffer pos)) :: r.2))) ∧
    (∀ (buffer : List Nat) (pos count : Nat),
      pos + 1 + byteD buffer pos ≤ buffer.length →
      isValidUTF8 ((buffer.drop (pos + 1)).take (byteD buffer pos)) = false →
      read_symbols_loop buffer pos (count + 1) = none) ∧
    (∀ (m1 m2 : List (List Nat × Nat)) (name : List Nat) (v : Nat),
      (∀ p ∈ m2, p.1 ≠ name) →
      hmLookup (m1 ++ (name, v) :: m2) name = some v) ∧
    (∀ (pre : List ObjectFile) (fi : ObjectFile) (mid : List ObjectFile)
        (fj : ObjectFile) (post : List ObjectFile) (name : List Nat) (a b : Nat),
      hmLookup fi.symbols name = some a →
      hmLookup fj.symbols name = some b →
      (∀ f ∈ post, hmLookup f.symbols name = none) →
      hmLookup (mergeFiles (pre ++ fi :: mid ++ fj :: post)).symbols name =
        some ((b + (codeConcat (pre ++ fi :: mid)).length % 4294967296) % 4294967296)) := by
  refine ⟨?_, ?_, ?_, ?_⟩
  · intro buffer pos count hb hv
    simp only [read_symbols_loop]
    rw [if_neg (by omega), if_neg (by omega), if_pos hv, if_neg (by omega)]
    cases read_symbols_loop buffer (pos + 1 + byteD buffer pos + 4) count with
    | none => rfl
    | some r => obtain ⟨syms, log⟩ := r; rfl
  · intro buffer pos count hb hv
    simp only [read_symbols_loop]
    rw [if_neg (by omega), if_neg (by omega), if_neg (by rw [hv]; decide)]
  · intro m1 m2 name v hm2
    rw [hmLookup_append]
    have hm2n : hmLookup m2 name = none :=
      hmLookup_eq_none.mpr (by
        intro hc
        obtain ⟨p, hp, hpe⟩ := List.mem_map.mp hc
        exact hm2 p hp hpe)
    simp [hmLookup, hm2n]
  · intro pre fi mid fj post name a b hfi hfj hpost
    have hsplit : pre ++ fi :: mid ++ fj :: post = (pre ++ fi :: mid) ++ fj :: post := by
      simp
    rw [hsplit]
    unfold mergeFiles
    rw [List.foldl_append, foldl_mergeFile_lookup_last post fj name b _ hfj hpost,
      foldl_mergeFile_code, List.nil_append]

theorem c7_witness :
    read_symbols_loop [1,0,0,0, 1,97, 5,0,0,0] 4 1 = some ([([97], 5)], [([97], 5)]) ∧
    read_symbols_loop [1,0,0,0, 1,255, 5,0,0,0] 4 1 = none ∧
    hmLookup [([98], 7), ([97], 1), ([97], 2)] [97] = some 2 ∧
    hmLookup (mergeFiles [⟨[([97], 5)], [], [9,9]⟩, ⟨[([97], 1)], [], []⟩]).symbols [97] =
      some 3 := by
  refine ⟨?_, ?_, ?_, ?_⟩
  · exact (c7_symbol_table_semantics.1 [1,0,0,0, 1,97, 5,0,0,0] 4 0
      (by decide) (by decide)).trans (by decide)
  · exact c7_symbol_table_semantics.2.1 [1,0,0,0, 1,255, 5,0,0,0] 4 0 (by decide) (by decide)
  · exact c7_symbol_table_semantics.2.2.1 [([98], 7), ([97], 1)] [] [97] 2 (by decide)
  · exact (c7_symbol_table_semantics.2.2.2 [] ⟨[([97], 5)], [], [9,9]⟩ [] ⟨[([97], 1)], [], []⟩
      [] [97] 5 1 (by decide) (by decide) (by decide)).trans (by decide)

/-- Claim C8 (code defect): decoding is not log-free.  `read_symbols` prints
    one line per symbol via `println!("Read symbol: {} at address: {}", ...)`
    (marked `// Debug print` in the source): on a buffer containing one
    symbol the decode's stdout log is non-empty, contradicting the
    specification's "pure transform, no per-symbol log output". -/
theorem c8_decode_logs :
    read_symbols [1,0,0,0, 1,97, 5,0,0,0] 0 = some ([([97], 5)], [([97], 5)]) ∧
    (([([97], 5)] : List (List Nat × Nat)) ≠ []) :=
  ⟨by decide, by decide⟩

/-- Claim C9: linking is deterministic.  The only run-to-run variation in the
    implementation is the iteration order of each decoded file's symbol
    `HashMap`; for any two runs over per-file permutations of the same
    symbol bindings (file order, relocations and code identical — keys of a
    `HashMap` are distinct), the link outcome, in particular the output byte
    buffer, is identical. -/
theorem c9_deterministic (fs1 fs2 : List ObjectFile)
    (h : List.Forall₂ (fun o1 o2 => o1.symbols.Perm o2.symbols ∧
      (o1.symbols.map Prod.fst).Nodup ∧ o1.relocations = o2.relocations ∧
      o1.code = o2.code) fs1 fs2) :
    linkFiles fs1 = linkFiles fs2 := by
  obtain ⟨hc, hr, hs⟩ := foldl_mergeFile_invariant h
    { symbols := [], relocations := [], code := [] }
    { symbols := [], relocations := [], code := [] } rfl rfl (fun _ => rfl)
  have hA : apply_relocations (mergeFiles fs1).code (mergeFiles fs1).symbols
      (mergeFiles fs1).relocations =
    apply_relocations (mergeFiles fs2).code (mergeFiles fs2).symbols
      (mergeFiles fs2).relocations := by
    unfold apply_relocations mergeFiles
    rw [hc, hr]
    exact apply_relocations_loop_congr hs _ _ _
  simp only [linkFiles, hA]

theorem c9_witness :
    linkFiles [⟨[([97], 1), ([98], 2)], [], [7,7]⟩] =
      linkFiles [⟨[([98], 2), ([97], 1)], [], [7,7]⟩] :=
  c9_deterministic _ _ (List.Forall₂.cons ⟨by decide, by decide, rfl, rfl⟩ List.Forall₂.nil)

/-- Claim C10: patching performs an unchecked 4-byte write.  If any
    resolvable relocation's site `S` violates `S + 4 ≤ code length`, the run
    is a panic (`none`), never a structured error; conversely when every
    resolvable site satisfies the precondition the run completes with a
    value. -/
theorem c10_unchecked_patch_write :
    (∀ (code : List Nat) (symbols rels : List (List Nat × Nat))
        (sym : List Nat) (S X : Nat),
      (sym, S) ∈ rels → hmLookup symbols sym = some X → code.length < S + 4 →
      apply_relocations code symbols rels = none) ∧
    (∀ (code : List Nat) (symbols rels : List (List Nat × Nat)),
      (∀ p ∈ rels, (hmLookup symbols p.1).isSome = true → p.2 + 4 ≤ code.length) →
      ∃ out, apply_relocations code symbols rels = some out) := by
  constructor
  · intro code symbols rels sym S X hmem hx hoob
    exact apply_relocations_loop_crash hmem hx hoob []
  · intro code symbols rels hb
    exact apply_relocations_loop_total hb []

theorem c10_witness :
    apply_relocations [0,0] [([97], 5)] [([97], 0)] = none ∧
    ∃ out, apply_relocations [0,0,0,0] [([97], 5)] [([97], 0)] = some out :=
  ⟨c10_unchecked_patch_write.1 [0,0] [([97], 5)] [([97], 0)] [97] 0 5
      (by decide) (by decide) (by decide),
   c10_unchecked_patch_write.2 [0,0,0,0] [([97], 5)] [([97], 0)] (by decide)⟩

end Link32
